import Mathlib

/-!
Verification of the embedding-gallery store (`face_db.py`) and the
nearest-neighbor matching engine (`recognizer.py`) of the face_recognize
repository, as a shallow embedding in Lean 4.

Embeddings are fixed-length numeric vectors; we model them as `List ℚ`.
The external `face_recognition` library's distance metric (Euclidean
distance) is modelled as an abstract distance function parameter `dist`,
since the matching logic under verification never inspects the metric,
only compares its values.  The filesystem under `faces_dir` is modelled
as an ordered directory listing of (filename, content) entries; filenames
appear pre-split into (stem, extension) pairs, exactly as
`os.path.splitext` splits them.
-/

namespace FaceRec

/-- An embedding vector (the code stores numpy float arrays; the matching
and persistence logic never inspects entries except through the external
distance function, so exact reals vs rationals is immaterial). -/
abbrev Emb := List ℚ

/-! ## MatchEngine: `recognizer.py` -/

/-- `face_recognition.face_distance(known_encodings, encoding)`: one
dissimilarity score per known encoding, in order.  `dist` stands for the
library's per-pair Euclidean distance. -/
def face_distance (dist : Emb → Emb → ℚ) (known_encodings : List Emb)
    (encoding : Emb) : List ℚ :=
  known_encodings.map (fun k => dist k encoding)

/-- `face_recognition.compare_faces(known_encodings, encoding, tolerance)`:
the library computes `list(face_distance(...) <= tolerance)`.  The source
calls it WITHOUT a tolerance argument, so the library default `0.6` is
used at the call site in `match` below. -/
def compare_faces (dist : Emb → Emb → ℚ) (known_encodings : List Emb)
    (encoding : Emb) (tolerance : ℚ) : List Bool :=
  (face_distance dist known_encodings encoding).map (fun d => decide (d ≤ tolerance))

/-- `np.argmin` on a non-empty list: index of the first minimum.
Arguments: remaining list, index of its head, best value, best index. -/
def argminAux : List ℚ → Nat → ℚ → Nat → Nat
  | [], _, _, best => best
  | d :: ds, i, bv, best =>
      if d < bv then argminAux ds (i + 1) d i else argminAux ds (i + 1) bv best

/-- `np.argmin(distances)`; the source only calls it on non-empty input
(guarded by the empty-gallery early return). -/
def argmin : List ℚ → Nat
  | [] => 0
  | d :: ds => argminAux ds 1 d 0

/-- `FaceRecognizer.match` (recognizer.py lines 88-99), with the
recognizer's configured `tolerance` field as first argument.
Note: `compare_faces` is called with the library's default tolerance 0.6
(the source passes no tolerance argument), while the final comparison
uses the configured `tolerance`. -/
def FaceRecognizer.match (tolerance : ℚ) (dist : Emb → Emb → ℚ) (encoding : Emb)
    (known_names : List String) (known_encodings : List Emb) : String × ℚ :=
  if known_encodings.isEmpty then ("Not recognized", 1)
  else
    let matchesL := compare_faces dist known_encodings encoding (6 / 10)
    let distances := face_distance dist known_encodings encoding
    let best_idx := argmin distances
    let best_distance := distances.getD best_idx 0
    if !matchesL.isEmpty && matchesL.getD best_idx false && decide (best_distance ≤ tolerance) then
      (known_names.getD best_idx "", best_distance)
    else
      ("Not recognized", best_distance)

/-- Full characterization of `match` on a non-empty gallery: the selected
index is the first global minimum of the distances, and the candidate is
returned iff its distance passes BOTH the library's fixed compare
threshold `0.6` and the configured tolerance. -/
def matchCharacterization (tolerance : ℚ) (dist : Emb → Emb → ℚ) (encoding : Emb)
    (known_names : List String) (known_encodings : List Emb) : Prop :=
  let ds := face_distance dist known_encodings encoding
  let i := argmin ds
  i < ds.length ∧
  (∀ j, j < ds.length → ds.getD i 0 ≤ ds.getD j 0) ∧
  (∀ j, j < i → ds.getD i 0 < ds.getD j 0) ∧
  FaceRecognizer.match tolerance dist encoding known_names known_encodings =
    (if ds.getD i 0 ≤ 6 / 10 ∧ ds.getD i 0 ≤ tolerance
     then (known_names.getD i "", ds.getD i 0)
     else ("Not recognized", ds.getD i 0))

/-! ## `FaceRecognizer.compute_encodings` (recognizer.py lines 44-86)

A face location is a `(top, right, bottom, left)` tuple of pixel
coordinates (integers).  The external embedding capabilities are
parameters:
* `primary`: the dlib shape-predictor / face-chip / encoder pipeline on
  one clipped region — `none` models the inner per-region `except` branch;
* `models_ok`: whether `_ensure_models()` (and the other code under the
  outer `try`) succeeds; when false the whole primary batch becomes `None`s;
* `fallback`: `face_recognition.face_encodings(rgb_small, face_locations)`
  — `none` models the `except` branch of the fallback `try`. -/

/-- A detected face region: `(top, right, bottom, left)`. -/
abbrev Region := Int × Int × Int × Int

/-- The primary (dlib chip-based) path of `compute_encodings`: one result
per region, clipping each region to the `h × w` image bounds, emitting
`None` for degenerate clipped regions and per-region capability failures.
Empty `face_locations` skips the path entirely (the source guards with
`if face_locations:`), leaving the empty list. -/
def primary_results (models_ok : Bool) (primary : Region → Option Emb)
    (h w : Int) (face_locations : List Region) : List (Option Emb) :=
  if face_locations.isEmpty then []
  else if models_ok then
    face_locations.map (fun r =>
      let top := max 0 r.1
      let left := max 0 r.2.2.2
      let bottom := min h r.2.2.1
      let right := min w r.2.1
      if bottom ≤ top ∨ right ≤ left then none
      else primary (top, right, bottom, left))
  else List.replicate face_locations.length none

/-- `FaceRecognizer.compute_encodings`: primary path, then the
all-or-nothing fallback when the primary path produced no encodings or
only `None`s. -/
def compute_encodings (models_ok : Bool) (primary : Region → Option Emb)
    (fallback : Option (List Emb)) (h w : Int)
    (face_locations : List Region) : List (Option Emb) :=
  let encodings := primary_results models_ok primary h w face_locations
  if encodings.isEmpty || encodings.all (fun e => e.isNone) then
    match fallback with
    | some encs => encs.map some
    | none => List.replicate face_locations.length none
  else
    encodings

/-- The statement verified about `compute_encodings`: one result per
region; a primary batch with a non-`None` entry is returned exactly as
produced; otherwise the fallback's batch (wrapped in `some`) replaces it
wholesale, or all-`None` when the fallback fails. -/
def computeEncodingsPolicy (models_ok : Bool) (primary : Region → Option Emb)
    (fallback : Option (List Emb)) (h w : Int)
    (face_locations : List Region) : Prop :=
  (compute_encodings models_ok primary fallback h w face_locations).length =
    face_locations.length ∧
  (¬ (primary_results models_ok primary h w face_locations).isEmpty = true →
   ¬ (primary_results models_ok primary h w face_locations).all (fun e => e.isNone) = true →
   compute_encodings models_ok primary fallback h w face_locations =
     primary_results models_ok primary h w face_locations) ∧
  (((primary_results models_ok primary h w face_locations).isEmpty = true ∨
    (primary_results models_ok primary h w face_locations).all (fun e => e.isNone) = true) →
   (∀ encs, fallback = some encs →
      compute_encodings models_ok primary fallback h w face_locations = encs.map some) ∧
   (fallback = none →
      compute_encodings models_ok primary fallback h w face_locations =
        List.replicate face_locations.length none))

/-! ## GalleryStore: `face_db.py` -/

/-- Python's `str.lower` on the ASCII extensions this code handles,
working on the character list so it evaluates inside the kernel. -/
def strLower (s : String) : String := ⟨s.data.map Char.toLower⟩

/-- Little-endian base-10 digits with structural fuel (fuel `n` suffices
for input `n`, see `digitsFuel_eq_digits`). -/
def digitsFuel : Nat → Nat → List Nat
  | 0, _ => []
  | _ + 1, 0 => []
  | fuel + 1, n + 1 => ((n + 1) % 10) :: digitsFuel fuel ((n + 1) / 10)

/-- Decimal rendering of a natural number, as the f-string interpolation
`f"{stem}_{idx}"` renders `idx`.  (Only used with positive indices.) -/
def natStr (n : Nat) : String := ⟨((digitsFuel n n).map Nat.digitChar).reverse⟩

/-- A gallery: Python's insertion-ordered dict mapping name → list of
encodings (`self.encodings`). -/
abbrev Gallery := List (String × List Emb)

/-- `self.encodings.setdefault(name, []).append(e)`. -/
def setdefaultAppend : Gallery → String → Emb → Gallery
  | [], name, e => [(name, [e])]
  | (n, es) :: rest, name, e =>
      if n = name then (n, es ++ [e]) :: rest
      else (n, es) :: setdefaultAppend rest name e

/-- A filename inside `faces_dir`, pre-split as (stem, extension) the way
`os.path.splitext` splits it (the extension includes its leading dot, or
is empty). -/
abbrev Filename := String × String

/-- What a directory entry holds, as observed by the operations reading
it. -/
inductive FileContent where
  /-- A serialized array artifact; `none` models content `np.load` raises on. -/
  | npy (data : Option Emb)
  /-- An image; `faces` is what the image-file embedding capability
  (`face_recognition.load_image_file` + `face_encodings`) finds in it:
  `none` models an unreadable image (loading raises), `some l` the list of
  detected-face embeddings (possibly empty). -/
  | image (faces : Option (List Emb))
  /-- A subdirectory: `os.path.isfile` is false. -/
  | dirEntry
  deriving DecidableEq

/-- `os.path.isfile`. -/
def FileContent.isRegularFile : FileContent → Bool
  | .dirEntry => false
  | _ => true

/-- `np.load` on a file: the array, or `none` when it raises. -/
def npLoad : FileContent → Option Emb
  | .npy d => d
  | _ => none

/-- The image-file embedding capability on a file: the detected faces'
embeddings, or `none` when it raises. -/
def faceEncodingsOfFile : FileContent → Option (List Emb)
  | .image f => f
  | _ => none

/-- The observable state of a `FaceDB`: the `faces_dir` listing (in
`os.listdir` order; `np.save` appends the new entry), the legacy
`encoding_file` (`none` = absent, `some none` = present but
undeserializable, `some (some g)` = deserializes to `g`), and the
in-memory `self.encodings`. -/
structure FaceDB where
  dir : List (Filename × FileContent)
  legacy : Option (Option Gallery)
  encodings : Gallery
  deriving DecidableEq

/-- One iteration of the `.npy` scan of `FaceDB._load` (lines 21-32). -/
def loadStep (acc : Gallery) (entry : Filename × FileContent) : Gallery :=
  if entry.2.isRegularFile then
    if strLower entry.1.2 = ".npy" then
      match npLoad entry.2 with
      | some arr => setdefaultAppend acc entry.1.1 arr
      | none => acc
    else acc
  else acc

/-- The `.npy` scan of `FaceDB._load` (lines 20-32). -/
def loadDir (dir : List (Filename × FileContent)) : Gallery :=
  dir.foldl loadStep []

/-- `FaceDB._load` (lines 18-40) complete: per-artifact loading, then the
legacy combined-file backward-compat path when nothing was loaded,
degrading to the empty gallery when `pickle.load` raises. -/
def load (dir : List (Filename × FileContent))
    (legacy : Option (Option Gallery)) : Gallery :=
  let encodings := loadDir dir
  if encodings.isEmpty ∧ legacy.isSome then
    match legacy with
    | some (some g) => g
    | _ => []
  else encodings

/-- `os.path.exists` for a file in `faces_dir`. -/
def existsFile (dir : List (Filename × FileContent)) (fn : Filename) : Bool :=
  dir.any (fun entry => entry.1 = fn)

/-- The collision-avoiding candidate name `f"{stem}_{idx}.npy"`. -/
def candName (stem : String) (idx : Nat) : Filename :=
  (stem ++ "_" ++ natStr idx, ".npy")

/-- The `while True` search of `FaceDB._save_npy` (lines 57-63): first
index ≥ `idx` whose candidate name is free.  `fuel` only bounds the
recursion: `findFreeAux_spec` proves fuel `dir.length + 1` never runs
out, so the fuel-exhausted base case is unreachable at the call site. -/
def findFreeAux (dir : List (Filename × FileContent)) (stem : String) :
    Nat → Nat → Nat
  | 0, idx => idx
  | fuel + 1, idx =>
      if existsFile dir (candName stem idx) then findFreeAux dir stem fuel (idx + 1)
      else idx

/-- `FaceDB._save_npy` (lines 46-63): save the encoding under
`<stem>.npy` when that name is free, else `<stem>_<k>.npy` for the first
free `k` counting up from 1.  Returns the new listing and the saved
filename. -/
def save_npy (dir : List (Filename × FileContent)) (stem : String)
    (encoding : Emb) : List (Filename × FileContent) × Filename :=
  if existsFile dir (stem, ".npy") = false then
    (dir ++ [((stem, ".npy"), .npy (some encoding))], (stem, ".npy"))
  else
    let fn := candName stem (findFreeAux dir stem (dir.length + 1) 1)
    (dir ++ [(fn, .npy (some encoding))], fn)

/-- Exceptions `add_face_from_image` can raise. -/
inductive PyError where
  /-- `FileNotFoundError(image_path)` (line 73). -/
  | fileNotFound
  /-- `face_recognition.load_image_file`/`face_encodings` raising. -/
  | imageReadError
  deriving DecidableEq

/-- The persistence part of `FaceDB.add_face_from_image` (lines 80-92),
i.e. the spec's `addEmbedding(name, embedding)`: save one new `.npy`
artifact, append to the in-memory mapping, and best-effort rewrite the
legacy pickle (modelled as succeeding; its `except: pass` failure leaves
`legacy` unchanged and affects nothing below).  Returns the new state and
the saved artifact's filename. -/
def addEmbedding (db : FaceDB) (name : String) (e : Emb) : FaceDB × Filename :=
  let saved := save_npy db.dir name e
  let encs := setdefaultAppend db.encodings name e
  ({ dir := saved.1, legacy := some (some encs), encodings := encs }, saved.2)

/-- `FaceDB.add_face_from_image` (lines 65-94).  `img` is what the
filesystem holds at `image_path` (`none`: the path does not exist). -/
def add_face_from_image (db : FaceDB) (name : String) (img : Option FileContent) :
    Except PyError (Bool × FaceDB) :=
  match img with
  | none => .error .fileNotFound
  | some c =>
    match faceEncodingsOfFile c with
    | none => .error .imageReadError
    | some [] => .ok (false, db)
    | some (e :: _) => .ok (true, (addEmbedding db name e).1)

/-- `FaceDB.get_all_encodings` (lines 134-141): flatten the mapping into
two parallel lists. -/
def get_all_encodings (g : Gallery) : List String × List Emb :=
  (g.flatMap (fun p => p.2.map (fun _ => p.1)), g.flatMap (fun p => p.2))

/-- The gallery flattened to (name, embedding) pairs; pairs up the two
parallel lists of `get_all_encodings` (see `zip_get_all_encodings`). -/
def galleryPairs (g : Gallery) : List (String × Emb) :=
  g.flatMap (fun p => p.2.map (fun e => (p.1, e)))

/-- The image extensions `ensure_encodings_from_folder` recognizes
(line 121). -/
def IMG_EXTS : List String := [".jpg", ".jpeg", ".png", ".bmp"]

/-- One iteration of `FaceDB.ensure_encodings_from_folder` (lines
116-131): skip non-files, non-image extensions and images that already
have a same-stem `.npy` in the CURRENT directory; otherwise enroll via
`add_face_from_image`, counting successes; the `try/except` swallows
per-image exceptions. -/
def ensure_step (acc : FaceDB × Nat) (entry : Filename × FileContent) :
    FaceDB × Nat :=
  if entry.2.isRegularFile = false then acc
  else if (IMG_EXTS.contains (strLower entry.1.2)) = false then acc
  else if existsFile acc.1.dir (entry.1.1, ".npy") then acc
  else
    match add_face_from_image acc.1 entry.1.1 (some entry.2) with
    | .ok (true, db') => (db', acc.2 + 1)
    | .ok (false, db') => (db', acc.2)
    | .error _ => acc

/-- `FaceDB.ensure_encodings_from_folder` (lines 111-132): fold the
per-image step over the `os.listdir` snapshot taken at call time, from
the current state with counter 0. -/
def ensure_encodings_from_folder (db : FaceDB) : FaceDB × Nat :=
  db.dir.foldl ensure_step (db, 0)

/-- A directory entry that is a regular file with a recognized image
extension. -/
def imageEntry (entry : Filename × FileContent) : Prop :=
  entry.2.isRegularFile = true ∧ IMG_EXTS.contains (strLower entry.1.2) = true

/-- An image entry whose enrollment cannot add an encoding: reading it
raises, or it contains no face. -/
def noFaces (entry : Filename × FileContent) : Prop :=
  faceEncodingsOfFile entry.2 = none ∨ faceEncodingsOfFile entry.2 = some []

/-- An image entry (relative to directory listing `dir`) that the scan
will enroll: an enrollable image lacking a same-stem artifact. -/
def enrollable (dir : List (Filename × FileContent))
    (entry : Filename × FileContent) : Prop :=
  imageEntry entry ∧
  existsFile dir (entry.1.1, ".npy") = false ∧
  ∃ e rest, faceEncodingsOfFile entry.2 = some (e :: rest)

/-! # Theorems -/

/-! ## Decimal suffixes: supporting lemmas -/

theorem digitsFuel_eq_digits : ∀ (fuel n : Nat), n ≤ fuel →
    digitsFuel fuel n = Nat.digits 10 n := by
  intro fuel
  induction fuel with
  | zero =>
    intro n hn
    interval_cases n
    simp [digitsFuel]
  | succ fuel ih =>
    intro n hn
    cases n with
    | zero => simp [digitsFuel]
    | succ m =>
      have hdiv : (m + 1) / 10 ≤ fuel := by
        have := Nat.div_lt_self (Nat.succ_pos m) (by norm_num : 1 < 10)
        omega
      rw [Nat.digits_def' (by norm_num : 1 < 10) (Nat.succ_pos m)]
      simp only [digitsFuel]
      rw [ih _ hdiv]

theorem digitChar_inj_lt : ∀ a < 10, ∀ b < 10, Nat.digitChar a = Nat.digitChar b → a = b := by
  decide

theorem map_digitChar_inj : ∀ (l₁ l₂ : List Nat), (∀ d ∈ l₁, d < 10) → (∀ d ∈ l₂, d < 10) →
    l₁.map Nat.digitChar = l₂.map Nat.digitChar → l₁ = l₂ := by
  intro l₁
  induction l₁ with
  | nil =>
    intro l₂ _ _ h
    cases l₂ with
    | nil => rfl
    | cons b bs => simp at h
  | cons a as ih =>
    intro l₂ h₁ h₂ h
    cases l₂ with
    | nil => simp at h
    | cons b bs =>
      simp only [List.map_cons, List.cons.injEq] at h
      have ha : a = b := digitChar_inj_lt a (h₁ a (List.mem_cons_self a as)) b
        (h₂ b (List.mem_cons_self b bs)) h.1
      have hs : as = bs := ih bs (fun d hd => h₁ d (List.mem_cons_of_mem a hd))
        (fun d hd => h₂ d (List.mem_cons_of_mem b hd)) h.2
      rw [ha, hs]

theorem natStr_injective : Function.Injective natStr := by
  intro a b h
  unfold natStr at h
  rw [digitsFuel_eq_digits a a (le_refl a), digitsFuel_eq_digits b b (le_refl b)] at h
  have hdata := congrArg String.data h
  simp only at hdata
  have hrev := List.reverse_injective hdata
  have hdig : Nat.digits 10 a = Nat.digits 10 b :=
    map_digitChar_inj _ _
      (fun d hd => Nat.digits_lt_base (by norm_num) hd)
      (fun d hd => Nat.digits_lt_base (by norm_num) hd) hrev
  have := congrArg (Nat.ofDigits 10) hdig
  rwa [Nat.ofDigits_digits, Nat.ofDigits_digits] at this

theorem string_append_left_cancel {s t₁ t₂ : String} (h : s ++ t₁ = s ++ t₂) :
    t₁ = t₂ := by
  have hdata := congrArg String.data h
  rw [String.data_append, String.data_append] at hdata
  exact String.ext (List.append_cancel_left hdata)

theorem candName_inj (stem : String) {i j : Nat} (h : candName stem i = candName stem j) :
    i = j := by
  unfold candName at h
  have h1 : stem ++ "_" ++ natStr i = stem ++ "_" ++ natStr j :=
    congrArg Prod.fst h
  exact natStr_injective (string_append_left_cancel h1)

/-- Pigeonhole for collision-avoided names: starting from any index `s`,
some index within the next `dir.length + 1` has a free candidate name. -/
theorem exists_free_candName (dir : List (Filename × FileContent)) (stem : String)
    (s : Nat) : ∃ m, m ≤ dir.length ∧ existsFile dir (candName stem (s + m)) = false := by
  by_contra hcon
  push_neg at hcon
  have htaken : ∀ m, m ≤ dir.length → existsFile dir (candName stem (s + m)) = true := by
    intro m hm
    have := hcon m hm
    cases hfe : existsFile dir (candName stem (s + m)) with
    | true => rfl
    | false => exact absurd hfe this
  have hmem : ∀ m, m ≤ dir.length → candName stem (s + m) ∈ dir.map Prod.fst := by
    intro m hm
    have := htaken m hm
    unfold existsFile at this
    rw [List.any_eq_true] at this
    obtain ⟨entry, hentry, heq⟩ := this
    rw [decide_eq_true_eq] at heq
    rw [← heq]
    exact List.mem_map_of_mem Prod.fst hentry
  classical
  set F : Finset Filename :=
    (Finset.range (dir.length + 1)).image (fun m => candName stem (s + m)) with hF
  have hcard : F.card = dir.length + 1 := by
    rw [hF, Finset.card_image_of_injective _ (fun m₁ m₂ hm => by
      have := candName_inj stem hm
      omega)]
    exact Finset.card_range _
  have hsub : F ⊆ (dir.map Prod.fst).toFinset := by
    intro x hx
    rw [hF, Finset.mem_image] at hx
    obtain ⟨m, hm, rfl⟩ := hx
    rw [Finset.mem_range] at hm
    exact List.mem_toFinset.mpr (hmem m (by omega))
  have hle : F.card ≤ (dir.map Prod.fst).toFinset.card := Finset.card_le_card hsub
  have hle2 : (dir.map Prod.fst).toFinset.card ≤ dir.length := by
    calc (dir.map Prod.fst).toFinset.card ≤ (dir.map Prod.fst).length :=
          List.toFinset_card_le _
      _ = dir.length := List.length_map _ _
  omega

/-- The while-loop search: with enough fuel, the result is the smallest
index ≥ the start whose candidate name is free. -/
theorem findFreeAux_spec (dir : List (Filename × FileContent)) (stem : String) :
    ∀ (fuel s : Nat), (∃ m, m < fuel ∧ existsFile dir (candName stem (s + m)) = false) →
    s ≤ findFreeAux dir stem fuel s ∧
    existsFile dir (candName stem (findFreeAux dir stem fuel s)) = false ∧
    (∀ j, s ≤ j → j < findFreeAux dir stem fuel s →
       existsFile dir (candName stem j) = true) := by
  intro fuel
  induction fuel with
  | zero =>
    intro s hex
    obtain ⟨m, hm, _⟩ := hex
    omega
  | succ fuel ih =>
    intro s hex
    by_cases htk : existsFile dir (candName stem s) = true
    · have hred : findFreeAux dir stem (fuel + 1) s = findFreeAux dir stem fuel (s + 1) := by
        simp only [findFreeAux, htk, if_true]
      rw [hred]
      have hex' : ∃ m, m < fuel ∧ existsFile dir (candName stem (s + 1 + m)) = false := by
        obtain ⟨m, hm, hfree⟩ := hex
        cases m with
        | zero => rw [Nat.add_zero] at hfree; rw [htk] at hfree; exact absurd hfree (by simp)
        | succ m' =>
          refine ⟨m', by omega, ?_⟩
          have : s + 1 + m' = s + (m' + 1) := by omega
          rw [this]
          exact hfree
      obtain ⟨h1, h2, h3⟩ := ih (s + 1) hex'
      refine ⟨by omega, h2, ?_⟩
      intro j hsj hjlt
      rcases Nat.eq_or_lt_of_le hsj with heq | hlt
      · rw [← heq]; exact htk
      · exact h3 j hlt hjlt
    · have hfk : existsFile dir (candName stem s) = false := by
        cases hfe : existsFile dir (candName stem s) with
        | true => exact absurd hfe htk
        | false => rfl
      have hred : findFreeAux dir stem (fuel + 1) s = s := by
        simp only [findFreeAux, hfk, Bool.false_eq_true, if_false]
      rw [hred]
      exact ⟨le_refl s, hfk, fun j h1 h2 => by omega⟩

/-- Characterization of `_save_npy`: the new listing is the old one plus
exactly one new `.npy` entry holding the encoding, under a name that was
not previously taken — `<stem>.npy` when free, else `<stem>_<k>.npy` for
the smallest free `k ≥ 1`. -/
theorem save_npy_spec (dir : List (Filename × FileContent)) (stem : String) (e : Emb) :
    (save_npy dir stem e).1 = dir ++ [((save_npy dir stem e).2, FileContent.npy (some e))] ∧
    (save_npy dir stem e).2.2 = ".npy" ∧
    existsFile dir (save_npy dir stem e).2 = false ∧
    (existsFile dir (stem, ".npy") = false → (save_npy dir stem e).2 = (stem, ".npy")) ∧
    (existsFile dir (stem, ".npy") = true →
       ∃ k, 1 ≤ k ∧ (save_npy dir stem e).2 = candName stem k ∧
            existsFile dir (candName stem k) = false ∧
            ∀ j, 1 ≤ j → j < k → existsFile dir (candName stem j) = true) := by
  by_cases hex : existsFile dir (stem, ".npy") = false
  · have hsv : save_npy dir stem e =
        (dir ++ [((stem, ".npy"), FileContent.npy (some e))], (stem, ".npy")) := by
      unfold save_npy
      rw [if_pos hex]
    rw [hsv]
    exact ⟨rfl, rfl, hex, fun _ => rfl, fun h => by simp [h] at hex⟩
  · have hex' : existsFile dir (stem, ".npy") = true := by
      cases hfe : existsFile dir (stem, ".npy") with
      | true => rfl
      | false => exact absurd hfe hex
    have hfuel : ∃ m, m < dir.length + 1 ∧
        existsFile dir (candName stem (1 + m)) = false := by
      obtain ⟨m, hm, hfree⟩ := exists_free_candName dir stem 1
      exact ⟨m, by omega, hfree⟩
    obtain ⟨h1, h2, h3⟩ := findFreeAux_spec dir stem (dir.length + 1) 1 hfuel
    have hsv : save_npy dir stem e =
        (dir ++ [((candName stem (findFreeAux dir stem (dir.length + 1) 1)),
            FileContent.npy (some e))],
         candName stem (findFreeAux dir stem (dir.length + 1) 1)) := by
      unfold save_npy
      rw [if_neg (by simp [hex'])]
    rw [hsv]
    refine ⟨rfl, rfl, h2, fun h => by simp [h] at hex', fun _ => ?_⟩
    exact ⟨findFreeAux dir stem (dir.length + 1) 1, h1, rfl, h2, fun j hj1 hj2 => h3 j hj1 hj2⟩

/-! ## Gallery and load: supporting lemmas -/

theorem galleryPairs_setdefaultAppend (g : Gallery) (name : String) (e : Emb) :
    (galleryPairs (setdefaultAppend g name e)).Perm (galleryPairs g ++ [(name, e)]) := by
  induction g with
  | nil => simp [setdefaultAppend, galleryPairs]
  | cons p rest ih =>
    obtain ⟨m, es⟩ := p
    by_cases h : m = name
    · subst h
      have hsd : setdefaultAppend ((m, es) :: rest) m e = (m, es ++ [e]) :: rest := by
        simp [setdefaultAppend]
      rw [hsd]
      simp only [galleryPairs, List.flatMap_cons, List.map_append, List.map_cons,
        List.map_nil, List.append_assoc]
      exact List.Perm.append_left _ (List.perm_append_comm)
    · have hsd : setdefaultAppend ((m, es) :: rest) name e =
          (m, es) :: setdefaultAppend rest name e := by
        simp [setdefaultAppend, h]
      rw [hsd]
      simp only [galleryPairs, List.flatMap_cons, List.append_assoc]
      exact List.Perm.append_left _ ih

theorem mem_galleryPairs_setdefaultAppend_self (g : Gallery) (name : String) (e : Emb) :
    (name, e) ∈ galleryPairs (setdefaultAppend g name e) :=
  (galleryPairs_setdefaultAppend g name e).mem_iff.mpr (by simp)

theorem mem_galleryPairs_setdefaultAppend_of_mem (g : Gallery) (name : String) (e : Emb)
    (p : String × Emb) (hp : p ∈ galleryPairs g) :
    p ∈ galleryPairs (setdefaultAppend g name e) :=
  (galleryPairs_setdefaultAppend g name e).mem_iff.mpr (by simp [hp])

theorem zip_map_const (es : List Emb) (m : String) :
    (es.map (fun _ => m)).zip es = es.map (fun e => (m, e)) := by
  induction es with
  | nil => rfl
  | cons a as ih => simp only [List.map_cons, List.zip_cons_cons, ih]

/-- `zip` of the two parallel lists built by `get_all_encodings` is the
gallery's (name, embedding) pair list. -/
theorem zip_get_all_encodings (g : Gallery) :
    (get_all_encodings g).1.zip (get_all_encodings g).2 = galleryPairs g := by
  induction g with
  | nil => rfl
  | cons p rest ih =>
    obtain ⟨m, es⟩ := p
    simp only [get_all_encodings, galleryPairs, List.flatMap_cons] at ih ⊢
    rw [List.zip_append (by simp)]
    rw [zip_map_const, ih]

theorem loadStep_of_npLoad_none (acc : Gallery) (entry : Filename × FileContent)
    (h : npLoad entry.2 = none) : loadStep acc entry = acc := by
  unfold loadStep
  by_cases h1 : entry.2.isRegularFile = true <;>
    by_cases h2 : strLower entry.1.2 = ".npy" <;>
      simp [h1, h2, h]

theorem loadStep_npy (acc : Gallery) (s : String) (e : Emb) :
    loadStep acc ((s, ".npy"), FileContent.npy (some e)) = setdefaultAppend acc s e := by
  have hl : strLower ".npy" = ".npy" := by decide
  simp [loadStep, FileContent.isRegularFile, npLoad, hl]

theorem loadDir_append_single (dir : List (Filename × FileContent))
    (entry : Filename × FileContent) :
    loadDir (dir ++ [entry]) = loadStep (loadDir dir) entry := by
  simp [loadDir, List.foldl_append]

theorem foldl_loadStep_all_none : ∀ (dir : List (Filename × FileContent)) (acc : Gallery),
    (∀ entry ∈ dir, npLoad entry.2 = none) → dir.foldl loadStep acc = acc := by
  intro dir
  induction dir with
  | nil => intro acc _; rfl
  | cons x xs ih =>
    intro acc hall
    rw [List.foldl_cons, loadStep_of_npLoad_none acc x (hall x (List.mem_cons_self x xs))]
    exact ih acc (fun entry he => hall entry (List.mem_cons_of_mem x he))

/-! ## Claims about `FaceDB._load` (C7, C10) -/

/-- C7: the legacy combined-gallery file is used iff the artifact scan
yields nothing and the file exists; the legacy path never surfaces a
deserialization failure — a corrupt legacy file degrades to the empty
gallery. -/
theorem load_legacy_fallback_policy (dir : List (Filename × FileContent))
    (legacy : Option (Option Gallery)) :
    (loadDir dir ≠ [] → load dir legacy = loadDir dir) ∧
    (legacy = none → load dir legacy = loadDir dir) ∧
    (loadDir dir = [] → load dir (some none) = []) ∧
    (loadDir dir = [] → ∀ g, load dir (some (some g)) = g) := by
  refine ⟨?_, ?_, ?_, ?_⟩
  · intro hne
    simp [load, List.isEmpty_iff, hne]
  · intro hl
    subst hl
    simp [load]
  · intro hnil
    simp [load, List.isEmpty_iff, hnil]
  · intro hnil g
    simp [load, List.isEmpty_iff, hnil]

/-- Witness for `load_legacy_fallback_policy`: a directory whose only
artifact is corrupt yields nothing, so a readable legacy file is used and
a corrupt legacy file degrades to the empty gallery. -/
theorem load_legacy_fallback_policy_witness :
    loadDir [(("a", ".npy"), FileContent.npy none)] = [] ∧
    load [(("a", ".npy"), FileContent.npy none)] (some (some [("bob", [[(1:ℚ)]])])) =
      [("bob", [[(1:ℚ)]])] ∧
    load [(("a", ".npy"), FileContent.npy none)] (some none) = [] :=
  ⟨by decide,
   (load_legacy_fallback_policy [(("a", ".npy"), FileContent.npy none)]
       (some (some [("bob", [[(1:ℚ)]])]))).2.2.2 (by decide) [("bob", [[(1:ℚ)]])],
   (load_legacy_fallback_policy [(("a", ".npy"), FileContent.npy none)]
       (some none)).2.2.1 (by decide)⟩

/-- C10: an artifact that fails to deserialize is silently skipped — the
scan's result is exactly that of the directory without it (so load never
fails because of it and every readable artifact still loads) — and when
every entry fails to load, `load` behaves exactly as on an artifact-free
directory, proceeding to the legacy fallback. -/
theorem load_skips_corrupt_artifacts (pre post : List (Filename × FileContent))
    (fn : Filename) (c : FileContent) (legacy : Option (Option Gallery))
    (hc : npLoad c = none) :
    loadDir (pre ++ (fn, c) :: post) = loadDir (pre ++ post) ∧
    ((∀ entry ∈ pre ++ (fn, c) :: post, npLoad entry.2 = none) →
       load (pre ++ (fn, c) :: post) legacy = load [] legacy) := by
  constructor
  · unfold loadDir
    rw [List.foldl_append, List.foldl_append, List.foldl_cons,
      loadStep_of_npLoad_none _ (fn, c) hc]
  · intro hall
    have hnil : loadDir (pre ++ (fn, c) :: post) = [] :=
      foldl_loadStep_all_none _ [] hall
    unfold load
    rw [hnil]
    rfl

/-- Witness for `load_skips_corrupt_artifacts` at a concrete input: a
readable artifact next to a corrupt one still loads. -/
theorem load_skips_corrupt_artifacts_witness :
    npLoad (FileContent.npy none) = none ∧
    loadDir [(("a", ".npy"), FileContent.npy (some [(1:ℚ)])),
             (("bad", ".npy"), FileContent.npy none)] =
      loadDir [(("a", ".npy"), FileContent.npy (some [(1:ℚ)]))] ∧
    loadDir [(("a", ".npy"), FileContent.npy (some [(1:ℚ)]))] = [("a", [[(1:ℚ)]])] :=
  ⟨rfl,
   (load_skips_corrupt_artifacts [(("a", ".npy"), FileContent.npy (some [(1:ℚ)]))] []
       ("bad", ".npy") (FileContent.npy none) none rfl).1,
   by decide⟩

/-! ## Claims about `add_face_from_image` (C6) -/

/-- C6: `add_face_from_image` raises FileNotFound when the image path
does not exist, returns false leaving the state untouched when the
capability finds zero faces, and otherwise enrolls exactly the FIRST
returned embedding (the remaining faces never influence the result) and
returns true. -/
theorem add_from_image_contract (db : FaceDB) (name : String) :
    add_face_from_image db name none = .error .fileNotFound ∧
    (∀ c, faceEncodingsOfFile c = some [] →
       add_face_from_image db name (some c) = .ok (false, db)) ∧
    (∀ c e rest, faceEncodingsOfFile c = some (e :: rest) →
       add_face_from_image db name (some c) = .ok (true, (addEmbedding db name e).1)) := by
  refine ⟨rfl, ?_, ?_⟩
  · intro c h
    have hred : add_face_from_image db name (some c) =
        (match faceEncodingsOfFile c with
         | none => .error .imageReadError
         | some [] => .ok (false, db)
         | some (e :: _) => .ok (true, (addEmbedding db name e).1)) := rfl
    rw [hred, h]
  · intro c e rest h
    have hred : add_face_from_image db name (some c) =
        (match faceEncodingsOfFile c with
         | none => .error .imageReadError
         | some [] => .ok (false, db)
         | some (e :: _) => .ok (true, (addEmbedding db name e).1)) := rfl
    rw [hred, h]

/-- Witness for `add_from_image_contract`: a zero-face image is refused
with the state unchanged; a two-face image enrolls only the first face. -/
theorem add_from_image_contract_witness :
    faceEncodingsOfFile (FileContent.image (some [])) = some [] ∧
    add_face_from_image (⟨[], none, []⟩ : FaceDB) "n"
      (some (FileContent.image (some []))) = .ok (false, (⟨[], none, []⟩ : FaceDB)) ∧
    faceEncodingsOfFile (FileContent.image (some [[(2:ℚ)], [(3:ℚ)]])) =
      some [[(2:ℚ)], [(3:ℚ)]] ∧
    add_face_from_image (⟨[], none, []⟩ : FaceDB) "n"
      (some (FileContent.image (some [[(2:ℚ)], [(3:ℚ)]]))) =
      .ok (true, (addEmbedding (⟨[], none, []⟩ : FaceDB) "n" [(2:ℚ)]).1) :=
  ⟨rfl,
   (add_from_image_contract (⟨[], none, []⟩ : FaceDB) "n").2.1 _ rfl,
   rfl,
   (add_from_image_contract (⟨[], none, []⟩ : FaceDB) "n").2.2 _ [(2:ℚ)] [[(3:ℚ)]] rfl⟩

/-! ## Claims about `addEmbedding` (C3, C4) and reload (C2) -/

/-- C3 (amended): every successful `addEmbedding` appends exactly one new
artifact to the directory, whose content deserializes back to the saved
embedding, and the in-memory gallery gains exactly one additional
(name, embedding) entry — under the REQUESTED name (not the resolved
artifact stem; see the counterexample). -/
theorem addEmbedding_one_artifact_one_entry (db : FaceDB) (name : String) (e : Emb) :
    (addEmbedding db name e).1.dir =
      db.dir ++ [((addEmbedding db name e).2, FileContent.npy (some e))] ∧
    npLoad (FileContent.npy (some e)) = some e ∧
    (galleryPairs (addEmbedding db name e).1.encodings).Perm
      (galleryPairs db.encodings ++ [(name, e)]) ∧
    (galleryPairs (addEmbedding db name e).1.encodings).length =
      (galleryPairs db.encodings).length + 1 := by
  obtain ⟨hdir, -, -, -, -⟩ := save_npy_spec db.dir name e
  refine ⟨hdir, rfl, galleryPairs_setdefaultAppend db.encodings name e, ?_⟩
  have := (galleryPairs_setdefaultAppend db.encodings name e).length_eq
  simpa using this

/-- C3 counterexample: after two adds under "alice", the second artifact
resolves to stem "alice_1", yet the in-memory gallery gains its entry
under "alice" — no entry at all exists under the resolved artifact
name "alice_1". -/
theorem addEmbedding_resolved_name_counterexample :
    (addEmbedding (addEmbedding (⟨[], none, []⟩ : FaceDB) "alice" [(1:ℚ)]).1
        "alice" [(2:ℚ)]).2 = ("alice_1", ".npy") ∧
    ¬ ∃ p ∈ galleryPairs (addEmbedding
        (addEmbedding (⟨[], none, []⟩ : FaceDB) "alice" [(1:ℚ)]).1
        "alice" [(2:ℚ)]).1.encodings, p.1 = "alice_1" := by
  decide

/-- C2 (amended): reloading after an `addEmbedding` attributes the new
embedding to the artifact's own stem — which on collision is the
suffixed name `name_k`, not the original name (see counterexample). -/
theorem load_attributes_to_artifact_stem (db : FaceDB) (name : String) (e : Emb) :
    loadDir (addEmbedding db name e).1.dir =
      setdefaultAppend (loadDir db.dir) (addEmbedding db name e).2.1 e := by
  obtain ⟨hdir, hext, -, -, -⟩ := save_npy_spec db.dir name e
  show loadDir (save_npy db.dir name e).1 =
    setdefaultAppend (loadDir db.dir) (save_npy db.dir name e).2.1 e
  rw [hdir, loadDir_append_single]
  have hfn : (save_npy db.dir name e).2 = ((save_npy db.dir name e).2.1, ".npy") := by
    rw [← hext]
  rw [hfn]
  exact loadStep_npy _ _ _

/-- C2 counterexample: two adds under "alice" followed by a reload yield
a gallery where the second embedding is attributed to "alice_1", not to
"alice" — refuting that all collision-avoided artifacts contribute to
the one original name. -/
theorem load_collision_attribution_counterexample :
    load (addEmbedding (addEmbedding (⟨[], none, []⟩ : FaceDB) "alice" [(1:ℚ)]).1
            "alice" [(2:ℚ)]).1.dir
         (addEmbedding (addEmbedding (⟨[], none, []⟩ : FaceDB) "alice" [(1:ℚ)]).1
            "alice" [(2:ℚ)]).1.legacy =
      [("alice", [[(1:ℚ)]]), ("alice_1", [[(2:ℚ)]])] ∧
    ("alice", [(2:ℚ)]) ∉ galleryPairs
      (load (addEmbedding (addEmbedding (⟨[], none, []⟩ : FaceDB) "alice" [(1:ℚ)]).1
               "alice" [(2:ℚ)]).1.dir
            (addEmbedding (addEmbedding (⟨[], none, []⟩ : FaceDB) "alice" [(1:ℚ)]).1
               "alice" [(2:ℚ)]).1.legacy) := by
  decide

/-- C4: `_save_npy` appends exactly one artifact named `<name>.npy` when
free, else `<name>_<k>.npy` for the smallest free k ≥ 1 (scanning from
1), never overwriting; hence two successive adds under one name create
two distinct artifacts, and `get_all_encodings` afterwards contains both
embeddings under that name. -/
theorem save_npy_naming_no_overwrite (db : FaceDB) (name : String) (e1 e2 : Emb) :
    ((save_npy db.dir name e1).1 =
       db.dir ++ [((save_npy db.dir name e1).2, FileContent.npy (some e1))] ∧
     existsFile db.dir (save_npy db.dir name e1).2 = false ∧
     (existsFile db.dir (name, ".npy") = false →
        (save_npy db.dir name e1).2 = (name, ".npy")) ∧
     (existsFile db.dir (name, ".npy") = true →
        ∃ k, 1 ≤ k ∧ (save_npy db.dir name e1).2 = candName name k ∧
             existsFile db.dir (candName name k) = false ∧
             ∀ j, 1 ≤ j → j < k → existsFile db.dir (candName name j) = true)) ∧
    ((addEmbedding db name e1).2 ≠
       (addEmbedding (addEmbedding db name e1).1 name e2).2 ∧
     (name, e1) ∈
       ((get_all_encodings (addEmbedding (addEmbedding db name e1).1 name e2).1.encodings).1.zip
        (get_all_encodings (addEmbedding (addEmbedding db name e1).1 name e2).1.encodings).2) ∧
     (name, e2) ∈
       ((get_all_encodings (addEmbedding (addEmbedding db name e1).1 name e2).1.encodings).1.zip
        (get_all_encodings (addEmbedding (addEmbedding db name e1).1 name e2).1.encodings).2)) := by
  obtain ⟨hA, hB, hC, hD, hE⟩ := save_npy_spec db.dir name e1
  refine ⟨⟨hA, hC, hD, hE⟩, ?_, ?_, ?_⟩
  · obtain ⟨-, -, hC2, -, -⟩ := save_npy_spec (addEmbedding db name e1).1.dir name e2
    have hC2' : existsFile (addEmbedding db name e1).1.dir
        (addEmbedding (addEmbedding db name e1).1 name e2).2 = false := hC2
    intro heq
    have htrue : existsFile (addEmbedding db name e1).1.dir
        (addEmbedding db name e1).2 = true := by
      have hdir : (addEmbedding db name e1).1.dir =
          db.dir ++ [((addEmbedding db name e1).2, FileContent.npy (some e1))] := hA
      rw [hdir]
      simp [existsFile]
    rw [heq, hC2'] at htrue
    exact absurd htrue (by simp)
  · rw [zip_get_all_encodings]
    exact mem_galleryPairs_setdefaultAppend_of_mem _ name e2 _
      (mem_galleryPairs_setdefaultAppend_self db.encodings name e1)
  · rw [zip_get_all_encodings]
    exact mem_galleryPairs_setdefaultAppend_self _ name e2

/-- Witness for `save_npy_naming_no_overwrite`, discharging both naming
cases: on an empty directory the plain name is used; on a directory
already holding `bob.npy` the smallest free suffix is used; and two adds
under one name give distinct artifacts. -/
theorem save_npy_naming_no_overwrite_witness :
    (existsFile (⟨[], none, []⟩ : FaceDB).dir ("bob", ".npy") = false ∧
     (save_npy (⟨[], none, []⟩ : FaceDB).dir "bob" [(1:ℚ)]).2 = ("bob", ".npy")) ∧
    (existsFile (⟨[(("bob", ".npy"), FileContent.npy (some [(1:ℚ)]))], none, []⟩ : FaceDB).dir
        ("bob", ".npy") = true ∧
     ∃ k, 1 ≤ k ∧
       (save_npy (⟨[(("bob", ".npy"), FileContent.npy (some [(1:ℚ)]))], none, []⟩ : FaceDB).dir
          "bob" [(2:ℚ)]).2 = candName "bob" k ∧
       existsFile (⟨[(("bob", ".npy"), FileContent.npy (some [(1:ℚ)]))], none, []⟩ : FaceDB).dir
          (candName "bob" k) = false ∧
       ∀ j, 1 ≤ j → j < k →
         existsFile (⟨[(("bob", ".npy"), FileContent.npy (some [(1:ℚ)]))], none, []⟩ : FaceDB).dir
            (candName "bob" j) = true) ∧
    (addEmbedding (⟨[], none, []⟩ : FaceDB) "bob" [(1:ℚ)]).2 ≠
      (addEmbedding (addEmbedding (⟨[], none, []⟩ : FaceDB) "bob" [(1:ℚ)]).1 "bob" [(2:ℚ)]).2 :=
  ⟨⟨rfl, (save_npy_naming_no_overwrite (⟨[], none, []⟩ : FaceDB) "bob"
        [(1:ℚ)] [(2:ℚ)]).1.2.2.1 rfl⟩,
   ⟨rfl, (save_npy_naming_no_overwrite
        (⟨[(("bob", ".npy"), FileContent.npy (some [(1:ℚ)]))], none, []⟩ : FaceDB) "bob"
        [(2:ℚ)] [(3:ℚ)]).1.2.2.2 rfl⟩,
   (save_npy_naming_no_overwrite (⟨[], none, []⟩ : FaceDB) "bob" [(1:ℚ)] [(2:ℚ)]).2.1⟩

/-! ## `ensure_encodings_from_folder`: supporting lemmas (C9) -/

theorem ensure_step_skip_notfile (acc : FaceDB × Nat) (entry : Filename × FileContent)
    (h : entry.2.isRegularFile = false) : ensure_step acc entry = acc := by
  unfold ensure_step
  rw [if_pos h]

theorem ensure_step_skip_ext (acc : FaceDB × Nat) (entry : Filename × FileContent)
    (h : IMG_EXTS.contains (strLower entry.1.2) = false) : ensure_step acc entry = acc := by
  unfold ensure_step
  by_cases h1 : entry.2.isRegularFile = false
  · rw [if_pos h1]
  · rw [if_neg h1, if_pos h]

theorem ensure_step_skip_artifact (acc : FaceDB × Nat) (entry : Filename × FileContent)
    (h : existsFile acc.1.dir (entry.1.1, ".npy") = true) : ensure_step acc entry = acc := by
  unfold ensure_step
  by_cases h1 : entry.2.isRegularFile = false
  · rw [if_pos h1]
  · rw [if_neg h1]
    by_cases h2 : (IMG_EXTS.contains (strLower entry.1.2)) = false
    · rw [if_pos h2]
    · rw [if_neg h2, if_pos h]

theorem add_face_from_image_red (db : FaceDB) (name : String) (c : FileContent) :
    add_face_from_image db name (some c) =
      (match faceEncodingsOfFile c with
       | none => .error .imageReadError
       | some [] => .ok (false, db)
       | some (e :: _) => .ok (true, (addEmbedding db name e).1)) := rfl

theorem ensure_step_nofaces (acc : FaceDB × Nat) (entry : Filename × FileContent)
    (h : noFaces entry) : ensure_step acc entry = acc := by
  unfold ensure_step
  by_cases h1 : entry.2.isRegularFile = false
  · rw [if_pos h1]
  · rw [if_neg h1]
    by_cases h2 : (IMG_EXTS.contains (strLower entry.1.2)) = false
    · rw [if_pos h2]
    · rw [if_neg h2]
      by_cases h3 : existsFile acc.1.dir (entry.1.1, ".npy") = true
      · rw [if_pos h3]
      · rw [if_neg h3, add_face_from_image_red]
        rcases h with hf | hf <;> rw [hf]

theorem ensure_step_enrolls (acc : FaceDB × Nat) (entry : Filename × FileContent)
    (hreg : entry.2.isRegularFile = true)
    (hext : IMG_EXTS.contains (strLower entry.1.2) = true)
    (hnoart : existsFile acc.1.dir (entry.1.1, ".npy") = false)
    (e : Emb) (rest : List Emb)
    (hfaces : faceEncodingsOfFile entry.2 = some (e :: rest)) :
    ensure_step acc entry = ((addEmbedding acc.1 entry.1.1 e).1, acc.2 + 1) := by
  unfold ensure_step
  rw [if_neg (by rw [hreg]; simp), if_neg (by rw [hext]; simp),
    if_neg (by rw [hnoart]; simp), add_face_from_image_red]
  rw [hfaces]

/-- Each scan step either leaves the state untouched or appends exactly
one `.npy` artifact and counts one addition. -/
theorem ensure_step_cases (acc : FaceDB × Nat) (entry : Filename × FileContent) :
    ensure_step acc entry = acc ∨
    (∃ fn e, (ensure_step acc entry).1.dir = acc.1.dir ++ [(fn, FileContent.npy (some e))] ∧
             fn.2 = ".npy" ∧
             (ensure_step acc entry).2 = acc.2 + 1) := by
  by_cases h1 : entry.2.isRegularFile = false
  · exact Or.inl (ensure_step_skip_notfile acc entry h1)
  · have hreg : entry.2.isRegularFile = true := by
      cases hfe : entry.2.isRegularFile with
      | true => rfl
      | false => exact absurd hfe h1
    by_cases h2 : IMG_EXTS.contains (strLower entry.1.2) = false
    · exact Or.inl (ensure_step_skip_ext acc entry h2)
    · have hext : IMG_EXTS.contains (strLower entry.1.2) = true := by
        cases hfe : IMG_EXTS.contains (strLower entry.1.2) with
        | true => rfl
        | false => exact absurd hfe h2
      by_cases h3 : existsFile acc.1.dir (entry.1.1, ".npy") = true
      · exact Or.inl (ensure_step_skip_artifact acc entry h3)
      · have hnoart : existsFile acc.1.dir (entry.1.1, ".npy") = false := by
          cases hfe : existsFile acc.1.dir (entry.1.1, ".npy") with
          | true => exact absurd hfe h3
          | false => rfl
        cases hfe : faceEncodingsOfFile entry.2 with
        | none => exact Or.inl (ensure_step_nofaces acc entry (Or.inl hfe))
        | some faces =>
          cases faces with
          | nil => exact Or.inl (ensure_step_nofaces acc entry (Or.inr hfe))
          | cons e rest =>
            right
            rw [ensure_step_enrolls acc entry hreg hext hnoart e rest hfe]
            obtain ⟨hA, hB, -, -, -⟩ := save_npy_spec acc.1.dir entry.1.1 e
            exact ⟨(save_npy acc.1.dir entry.1.1 e).2, e, hA, hB, rfl⟩

theorem ensure_step_count_mono (acc : FaceDB × Nat) (entry : Filename × FileContent) :
    acc.2 ≤ (ensure_step acc entry).2 := by
  rcases ensure_step_cases acc entry with h | ⟨fn, e, -, -, hcnt⟩
  · rw [h]
  · rw [hcnt]; omega

theorem ensure_foldl_count_mono : ∀ (l : List (Filename × FileContent)) (acc : FaceDB × Nat),
    acc.2 ≤ (l.foldl ensure_step acc).2 := by
  intro l
  induction l with
  | nil => intro acc; exact le_refl _
  | cons x xs ih =>
    intro acc
    rw [List.foldl_cons]
    exact le_trans (ensure_step_count_mono acc x) (ih (ensure_step acc x))

/-- If the scan counts no addition, it changed nothing. -/
theorem ensure_foldl_count_eq : ∀ (l : List (Filename × FileContent)) (acc : FaceDB × Nat),
    (l.foldl ensure_step acc).2 = acc.2 → l.foldl ensure_step acc = acc := by
  intro l
  induction l with
  | nil => intro acc _; rfl
  | cons x xs ih =>
    intro acc hcnt
    rw [List.foldl_cons] at hcnt ⊢
    have h1 : acc.2 ≤ (ensure_step acc x).2 := ensure_step_count_mono acc x
    have h2 : (ensure_step acc x).2 ≤ (xs.foldl ensure_step (ensure_step acc x)).2 :=
      ensure_foldl_count_mono xs (ensure_step acc x)
    have hstep : ensure_step acc x = acc := by
      rcases ensure_step_cases acc x with h | ⟨fn, e, -, -, hc⟩
      · exact h
      · omega
    rw [hstep] at hcnt ⊢
    exact ih acc hcnt

/-- The scan only ever appends `.npy` artifacts to the directory. -/
theorem ensure_foldl_dir_extends : ∀ (l : List (Filename × FileContent)) (acc : FaceDB × Nat),
    ∃ Δ, (l.foldl ensure_step acc).1.dir = acc.1.dir ++ Δ ∧ ∀ p ∈ Δ, p.1.2 = ".npy" := by
  intro l
  induction l with
  | nil => intro acc; exact ⟨[], by simp, fun p hp => absurd hp (List.not_mem_nil p)⟩
  | cons x xs ih =>
    intro acc
    rw [List.foldl_cons]
    obtain ⟨Δ, hΔ, hnpy⟩ := ih (ensure_step acc x)
    rcases ensure_step_cases acc x with h | ⟨fn, e, hdir, hfn, -⟩
    · rw [h] at hΔ
      rw [h]
      exact ⟨Δ, hΔ, hnpy⟩
    · refine ⟨(fn, FileContent.npy (some e)) :: Δ, ?_, ?_⟩
      · rw [hΔ, hdir, List.append_assoc]
        rfl
      · intro p hp
        rcases List.mem_cons.mp hp with rfl | hp'
        · exact hfn
        · exact hnpy p hp'

theorem existsFile_append_left (dir Δ : List (Filename × FileContent)) (fn : Filename)
    (h : existsFile dir fn = true) : existsFile (dir ++ Δ) fn = true := by
  unfold existsFile at *
  rw [List.any_append, h]
  rfl

theorem existsFile_mono_foldl (l : List (Filename × FileContent)) (acc : FaceDB × Nat)
    (fn : Filename) (h : existsFile acc.1.dir fn = true) :
    existsFile (l.foldl ensure_step acc).1.dir fn = true := by
  obtain ⟨Δ, hΔ, -⟩ := ensure_foldl_dir_extends l acc
  rw [hΔ]
  exact existsFile_append_left _ _ _ h

/-- First call, positivity: if the counter is already positive or some
entry still to be processed is enrollable against the CURRENT directory,
the final count is positive. -/
theorem ensure_foldl_pos : ∀ (l : List (Filename × FileContent)) (acc : FaceDB × Nat),
    (0 < acc.2 ∨ ∃ entry ∈ l, enrollable acc.1.dir entry) →
    0 < (l.foldl ensure_step acc).2 := by
  intro l
  induction l with
  | nil =>
    intro acc h
    rcases h with h | ⟨entry, hmem, -⟩
    · exact h
    · exact absurd hmem (List.not_mem_nil entry)
  | cons x xs ih =>
    intro acc h
    rw [List.foldl_cons]
    rcases h with hpos | ⟨entry, hmem, henr⟩
    · exact ih (ensure_step acc x)
        (Or.inl (lt_of_lt_of_le hpos (ensure_step_count_mono acc x)))
    · rcases List.mem_cons.mp hmem with rfl | hmem'
      · obtain ⟨⟨hreg, hext⟩, hnoart, e, rest, hfaces⟩ := henr
        have hstep := ensure_step_enrolls acc entry hreg hext hnoart e rest hfaces
        refine ih (ensure_step acc entry) (Or.inl ?_)
        rw [hstep]
        omega
      · rcases ensure_step_cases acc x with hcase | ⟨fn, e, -, -, hcount⟩
        · rw [hcase]
          exact ih acc (Or.inr ⟨entry, hmem', henr⟩)
        · exact ih (ensure_step acc x) (Or.inl (by rw [hcount]; omega))

/-- First call, postcondition: every image entry of the processed listing
either has a same-stem artifact in the final directory or holds no
enrollable face. -/
theorem ensure_foldl_artifact_or_nofaces :
    ∀ (l : List (Filename × FileContent)) (acc : FaceDB × Nat)
      (entry : Filename × FileContent), entry ∈ l → imageEntry entry →
    existsFile (l.foldl ensure_step acc).1.dir (entry.1.1, ".npy") = true ∨
    noFaces entry := by
  intro l
  induction l with
  | nil => intro acc entry hmem; exact absurd hmem (List.not_mem_nil entry)
  | cons x xs ih =>
    intro acc entry hmem himg
    rw [List.foldl_cons]
    rcases List.mem_cons.mp hmem with rfl | hmem'
    · by_cases hart : existsFile acc.1.dir (entry.1.1, ".npy") = true
      · left
        have hstep : existsFile (ensure_step acc entry).1.dir (entry.1.1, ".npy") = true := by
          rcases ensure_step_cases acc entry with h | ⟨fn, e, hdir, -, -⟩
          · rw [h]; exact hart
          · rw [hdir]; exact existsFile_append_left _ _ _ hart
        exact existsFile_mono_foldl xs (ensure_step acc entry) _ hstep
      · have hnoart : existsFile acc.1.dir (entry.1.1, ".npy") = false := by
          cases hfe : existsFile acc.1.dir (entry.1.1, ".npy") with
          | true => exact absurd hfe hart
          | false => rfl
        cases hfe : faceEncodingsOfFile entry.2 with
        | none => exact Or.inr (Or.inl hfe)
        | some faces =>
          cases faces with
          | nil => exact Or.inr (Or.inr hfe)
          | cons e rest =>
            left
            obtain ⟨hreg, hext⟩ := himg
            have hstep := ensure_step_enrolls acc entry hreg hext hnoart e rest hfe
            have hplain : (save_npy acc.1.dir entry.1.1 e).2 = (entry.1.1, ".npy") :=
              (save_npy_spec acc.1.dir entry.1.1 e).2.2.2.1 hnoart
            have hnew : existsFile (ensure_step acc entry).1.dir (entry.1.1, ".npy") = true := by
              rw [hstep]
              have hdir : (addEmbedding acc.1 entry.1.1 e).1.dir =
                  acc.1.dir ++ [((save_npy acc.1.dir entry.1.1 e).2,
                    FileContent.npy (some e))] :=
                (save_npy_spec acc.1.dir entry.1.1 e).1
              show existsFile (addEmbedding acc.1 entry.1.1 e).1.dir (entry.1.1, ".npy") = true
              rw [hdir, hplain]
              unfold existsFile
              rw [List.any_append]
              simp
            exact existsFile_mono_foldl xs (ensure_step acc entry) _ hnew
    · exact ih (ensure_step acc x) entry hmem' himg

/-- A scan over entries all of which the step ignores is the identity
with count 0. -/
theorem ensure_foldl_inert : ∀ (l : List (Filename × FileContent)) (db : FaceDB),
    (∀ entry ∈ l, ∀ n, ensure_step (db, n) entry = (db, n)) →
    ∀ n, l.foldl ensure_step (db, n) = (db, n) := by
  intro l
  induction l with
  | nil => intro db _ n; rfl
  | cons x xs ih =>
    intro db h n
    rw [List.foldl_cons, h x (List.mem_cons_self x xs) n]
    exact ih db (fun entry he => h entry (List.mem_cons_of_mem x he)) n

/-- C9: `ensure_encodings_from_folder` is idempotent.  If the directory
holds at least one enrollable image lacking a same-stem artifact, the
first call returns a positive count (failing or zero-face images are
swallowed as non-additions without stopping the scan, which the model's
step function encodes), and an immediately repeated call changes nothing
and returns exactly 0. -/
theorem ensure_idempotent (db₀ : FaceDB)
    (hx : ∃ entry ∈ db₀.dir, enrollable db₀.dir entry) :
    0 < (ensure_encodings_from_folder db₀).2 ∧
    ensure_encodings_from_folder (ensure_encodings_from_folder db₀).1 =
      ((ensure_encodings_from_folder db₀).1, 0) := by
  constructor
  · exact ensure_foldl_pos db₀.dir (db₀, 0) (Or.inr hx)
  · show (ensure_encodings_from_folder db₀).1.dir.foldl ensure_step
        ((ensure_encodings_from_folder db₀).1, 0) =
      ((ensure_encodings_from_folder db₀).1, 0)
    apply ensure_foldl_inert
    intro entry hmem n
    obtain ⟨Δ, hΔ, hnpy⟩ := ensure_foldl_dir_extends db₀.dir (db₀, 0)
    have hdir : (ensure_encodings_from_folder db₀).1.dir = db₀.dir ++ Δ := hΔ
    rw [hdir] at hmem
    rcases List.mem_append.mp hmem with hmem₀ | hmemΔ
    · by_cases himg : imageEntry entry
      · rcases ensure_foldl_artifact_or_nofaces db₀.dir (db₀, 0) entry hmem₀ himg with
          hart | hnf
        · exact ensure_step_skip_artifact _ entry hart
        · exact ensure_step_nofaces _ entry hnf
      · unfold imageEntry at himg
        push_neg at himg
        by_cases hreg : entry.2.isRegularFile = true
        · have hc := himg hreg
          have hcf : IMG_EXTS.contains (strLower entry.1.2) = false := by
            cases hfe : IMG_EXTS.contains (strLower entry.1.2) with
            | true => exact absurd hfe hc
            | false => rfl
          exact ensure_step_skip_ext _ entry hcf
        · have hrf : entry.2.isRegularFile = false := by
            cases hfe : entry.2.isRegularFile with
            | true => exact absurd hfe hreg
            | false => rfl
          exact ensure_step_skip_notfile _ entry hrf
    · have hext := hnpy entry hmemΔ
      apply ensure_step_skip_ext
      rw [hext]
      decide

/-- Witness for `ensure_idempotent`: a directory with one enrollable
image; the first scan enrolls it (count 1 > 0), the second changes
nothing and returns 0. -/
theorem ensure_idempotent_witness :
    (∃ entry ∈ (⟨[(("bob", ".jpg"), FileContent.image (some [[(3:ℚ)]]))], none, []⟩ : FaceDB).dir,
       enrollable (⟨[(("bob", ".jpg"), FileContent.image (some [[(3:ℚ)]]))], none, []⟩ : FaceDB).dir
         entry) ∧
    0 < (ensure_encodings_from_folder
        (⟨[(("bob", ".jpg"), FileContent.image (some [[(3:ℚ)]]))], none, []⟩ : FaceDB)).2 ∧
    ensure_encodings_from_folder
        (ensure_encodings_from_folder
          (⟨[(("bob", ".jpg"), FileContent.image (some [[(3:ℚ)]]))], none, []⟩ : FaceDB)).1 =
      ((ensure_encodings_from_folder
          (⟨[(("bob", ".jpg"), FileContent.image (some [[(3:ℚ)]]))], none, []⟩ : FaceDB)).1, 0) :=
  ⟨⟨(("bob", ".jpg"), FileContent.image (some [[(3:ℚ)]])),
    List.mem_singleton.mpr rfl,
    ⟨rfl, by decide⟩, by decide, [(3:ℚ)], [], rfl⟩,
   ensure_idempotent (⟨[(("bob", ".jpg"), FileContent.image (some [[(3:ℚ)]]))], none, []⟩ : FaceDB)
     ⟨(("bob", ".jpg"), FileContent.image (some [[(3:ℚ)]])),
      List.mem_singleton.mpr rfl,
      ⟨rfl, by decide⟩, by decide, [(3:ℚ)], [], rfl⟩⟩

/-! ## argmin: supporting lemmas -/

theorem argminAux_le_length : ∀ (l : List ℚ) (i : Nat) (bv : ℚ) (b : Nat),
    b < i → argminAux l i bv b < i + l.length := by
  intro l
  induction l with
  | nil => intro i bv b hb; simpa [argminAux] using hb
  | cons d ds ih =>
    intro i bv b hb
    simp only [argminAux, List.length_cons]
    by_cases h : d < bv
    · simp only [h, if_pos]
      have := ih (i + 1) d i (Nat.lt_succ_self i)
      omega
    · simp only [h, if_neg, not_false_iff]
      have := ih (i + 1) bv b (Nat.lt_succ_of_lt hb)
      omega

theorem argmin_lt_length (d : ℚ) (ds : List ℚ) :
    argmin (d :: ds) < (d :: ds).length := by
  have := argminAux_le_length ds 1 d 0 (Nat.zero_lt_one)
  simp only [argmin, List.length_cons]
  omega

/-- Characterization of `argminAux`: the result is either the carried best
index or an index of an element of the remaining list, its value is ≤ the
carried best value and all remaining values, and every index strictly
before it (≥ the carried best index) has a strictly larger value. -/
theorem argminAux_spec (l : List ℚ) : ∀ (i : Nat) (bv : ℚ) (b : Nat)
    (full : List ℚ), b < i → i + l.length = full.length →
    (∀ j, i ≤ j → j < i + l.length → full.getD j 0 = l.getD (j - i) 0) →
    full.getD b 0 = bv →
    (argminAux l i bv b < full.length ∧
     full.getD (argminAux l i bv b) 0 ≤ bv ∧
     (∀ j, i ≤ j → j < full.length →
        full.getD (argminAux l i bv b) 0 ≤ full.getD j 0) ∧
     (argminAux l i bv b = b ∨
       (i ≤ argminAux l i bv b ∧
        full.getD (argminAux l i bv b) 0 < bv ∧
        ∀ j, i ≤ j → j < argminAux l i bv b → full.getD (argminAux l i bv b) 0 < full.getD j 0))) := by
  induction l with
  | nil =>
    intro i bv b full hb hlen hrest hbv
    simp only [List.length_nil, Nat.add_zero] at hlen
    simp only [argminAux]
    refine ⟨by omega, le_of_eq hbv, ?_, Or.inl trivial⟩
    intro j hij hjlen
    omega
  | cons d ds ih =>
    intro i bv b full hb hlen hrest hbv
    have hd : full.getD i 0 = d := by
      have := hrest i (le_refl i) (by simp only [List.length_cons]; omega)
      simpa using this
    have hlen' : (i + 1) + ds.length = full.length := by
      simp only [List.length_cons] at hlen; omega
    have hrest' : ∀ j, i + 1 ≤ j → j < (i + 1) + ds.length →
        full.getD j 0 = ds.getD (j - (i + 1)) 0 := by
      intro j hij hjlen
      have h1 := hrest j (by omega) (by simp only [List.length_cons]; omega)
      have hji : j - i = (j - (i + 1)) + 1 := by omega
      rw [h1, hji]
      simp
    simp only [argminAux]
    by_cases h : d < bv
    · simp only [h, if_pos]
      obtain ⟨h1, h2, h3, h4⟩ := ih (i + 1) d i full (Nat.lt_succ_self i) hlen' hrest' hd
      refine ⟨h1, le_of_lt (lt_of_le_of_lt h2 h), ?_, ?_⟩
      · intro j hij hjlen
        rcases Nat.eq_or_lt_of_le hij with heq | hlt
        · rw [← heq, hd]; exact h2
        · exact h3 j hlt hjlen
      · right
        rcases h4 with h4 | ⟨h4a, h4b, h4c⟩
        · rw [h4]
          refine ⟨le_refl i, ?_, ?_⟩
          · rw [hd]; exact h
          · intro j hij hji; omega
        · refine ⟨by omega, lt_trans h4b h, ?_⟩
          intro j hij hji
          rcases Nat.eq_or_lt_of_le hij with heq | hlt
          · rw [← heq, hd]; exact h4b
          · exact h4c j hlt hji
    · simp only [h, if_neg, not_false_iff]
      obtain ⟨h1, h2, h3, h4⟩ := ih (i + 1) bv b full (Nat.lt_succ_of_lt hb) hlen' hrest' hbv
      refine ⟨h1, h2, ?_, ?_⟩
      · intro j hij hjlen
        rcases Nat.eq_or_lt_of_le hij with heq | hlt
        · rw [← heq, hd]
          exact le_trans h2 (not_lt.mp h)
        · exact h3 j hlt hjlen
      · rcases h4 with h4 | ⟨h4a, h4b, h4c⟩
        · exact Or.inl h4
        · right
          refine ⟨by omega, h4b, ?_⟩
          intro j hij hji
          rcases Nat.eq_or_lt_of_le hij with heq | hlt
          · rw [← heq, hd]
            exact lt_of_lt_of_le h4b (not_lt.mp h)
          · exact h4c j hlt hji

/-- `argmin` on a non-empty list returns the index of the first global
minimum: it is in range, its value is a global minimum, and every earlier
index holds a strictly larger value. -/
theorem argmin_spec (d : ℚ) (ds : List ℚ) :
    argmin (d :: ds) < (d :: ds).length ∧
    (∀ j, j < (d :: ds).length →
      (d :: ds).getD (argmin (d :: ds)) 0 ≤ (d :: ds).getD j 0) ∧
    (∀ j, j < argmin (d :: ds) →
      (d :: ds).getD (argmin (d :: ds)) 0 < (d :: ds).getD j 0) := by
  have h := argminAux_spec ds 1 d 0 (d :: ds) Nat.zero_lt_one
    (by simp only [List.length_cons]; omega)
    (by intro j h1 h2; cases j with
                  | zero => omega
                  | succ n => simp)
    (by simp)
  obtain ⟨h1, h2, h3, h4⟩ := h
  simp only [argmin]
  refine ⟨h1, ?_, ?_⟩
  · intro j hj
    cases j with
    | zero => simpa using h2
    | succ n => exact h3 (n + 1) (Nat.succ_le_succ (Nat.zero_le n)) hj
  · intro j hj
    rcases h4 with h4 | ⟨h4a, h4b, h4c⟩
    · omega
    · cases j with
      | zero => simpa using h4b
      | succ n => exact h4c (n + 1) (Nat.succ_le_succ (Nat.zero_le n)) hj

/-! ## Claims about `FaceRecognizer.match` -/

theorem getD_map_of_lt {α β : Type} (l : List α) (f : α → β) (i : Nat)
    (d : β) (d' : α) (h : i < l.length) :
    (l.map f).getD i d = f (l.getD i d') := by
  rw [List.getD_eq_getElem?_getD, List.getD_eq_getElem?_getD, List.getElem?_map]
  rw [List.getElem?_eq_getElem h]
  simp

/-- C1 (amended): for every configured tolerance, abstract metric, query
and non-empty parallel gallery, `match` selects the candidate with the
globally minimum distance (lowest index on ties) and returns its name and
distance iff that distance is ≤ 0.6 (the library's fixed default used for
the per-candidate boolean flags, since the source passes no tolerance to
`compare_faces`) and ≤ the configured tolerance; otherwise it returns the
unrecognized sentinel paired with the minimum distance. -/
theorem match_selects_min_and_thresholds (tolerance : ℚ) (dist : Emb → Emb → ℚ)
    (encoding : Emb) (known_names : List String) (known_encodings : List Emb)
    (hne : known_encodings ≠ [])
    (hlen : known_names.length = known_encodings.length) :
    matchCharacterization tolerance dist encoding known_names known_encodings := by
  obtain ⟨k, ks, rfl⟩ : ∃ k ks, known_encodings = k :: ks := by
    cases known_encodings with
    | nil => exact absurd rfl hne
    | cons k ks => exact ⟨k, ks, rfl⟩
  unfold matchCharacterization
  have hds : face_distance dist (k :: ks) encoding =
      dist k encoding :: ks.map (fun x => dist x encoding) := by
    simp [face_distance]
  simp only [hds]
  obtain ⟨hlt, hmin, hfirst⟩ := argmin_spec (dist k encoding) (ks.map (fun x => dist x encoding))
  refine ⟨hlt, hmin, hfirst, ?_⟩
  unfold FaceRecognizer.match
  simp only [List.isEmpty_cons, Bool.false_eq_true, if_false]
  set ds := dist k encoding :: ks.map (fun x => dist x encoding) with hds'
  have hcf : compare_faces dist (k :: ks) encoding (6 / 10) =
      ds.map (fun d => decide (d ≤ 6 / 10)) := by
    simp [compare_faces, hds', hds]
  rw [hds] at *
  rw [hcf]
  have hne' : (ds.map (fun d => decide (d ≤ 6 / 10))).isEmpty = false := by
    rw [hds']; simp
  have hget : (ds.map (fun d => decide (d ≤ 6 / 10))).getD (argmin ds) false =
      decide (ds.getD (argmin ds) 0 ≤ 6 / 10) :=
    getD_map_of_lt ds (fun d => decide (d ≤ 6 / 10)) (argmin ds) false 0 hlt
  rw [hne', hget]
  by_cases h1 : ds.getD (argmin ds) 0 ≤ 6 / 10 <;>
    by_cases h2 : ds.getD (argmin ds) 0 ≤ tolerance <;>
      simp [h1, h2]

/-- Witness for `match_selects_min_and_thresholds` at a concrete input. -/
theorem match_selects_min_witness :
    (([[(0:ℚ)]] : List Emb) ≠ [] ∧ (["a"] : List String).length = ([[(0:ℚ)]] : List Emb).length) ∧
    matchCharacterization 1 (fun _ _ => 1 / 2) [] ["a"] [[(0:ℚ)]] :=
  ⟨⟨by decide, rfl⟩,
   match_selects_min_and_thresholds 1 (fun _ _ => 1 / 2) [] ["a"] [[(0:ℚ)]]
     (by decide) rfl⟩

/-- C1 counterexample: with configured tolerance 1 and a single candidate
at distance 7/10, the minimum distance is ≤ the configured tolerance, yet
`match` returns the unrecognized sentinel (because the boolean flags use
the library's fixed 0.6, not the configured tolerance) — refuting the
claim that the candidate is returned iff its distance ≤ tolerance. -/
theorem match_tolerance_counterexample :
    (7 / 10 : ℚ) ≤ 1 ∧
    FaceRecognizer.match 1 (fun _ _ => 7 / 10) [] ["alice"] [[(0:ℚ)]] =
      ("Not recognized", 7 / 10) := by
  constructor
  · norm_num
  · norm_num [FaceRecognizer.match, compare_faces, face_distance, argmin, argminAux]

/-- C8: on an empty gallery (empty names and embeddings), `match` returns
the unrecognized sentinel with distance exactly 1, independent of the
query embedding, the metric and the tolerance. -/
theorem match_empty_gallery (tolerance : ℚ) (dist : Emb → Emb → ℚ) (encoding : Emb) :
    FaceRecognizer.match tolerance dist encoding [] [] = ("Not recognized", 1) :=
  rfl

/-! ## Claims about `compute_encodings` -/

/-- C5: `compute_encodings` returns one result per region in input order;
the fallback runs iff the primary batch is empty or all-`None`, in which
case it replaces the whole batch (all-`None` if the fallback itself
fails); a primary batch with at least one non-`None` entry is returned
exactly as produced. The hypothesis is the fallback collaborator's
contract: it returns one embedding per region. -/
theorem compute_encodings_fallback_policy (models_ok : Bool)
    (primary : Region → Option Emb) (fallback : Option (List Emb))
    (h w : Int) (face_locations : List Region)
    (hfb : ∀ encs, fallback = some encs → encs.length = face_locations.length) :
    computeEncodingsPolicy models_ok primary fallback h w face_locations := by
  unfold computeEncodingsPolicy
  have hplen : (primary_results models_ok primary h w face_locations).isEmpty = false →
      (primary_results models_ok primary h w face_locations).length =
        face_locations.length := by
    intro hne
    unfold primary_results at *
    by_cases hfl : face_locations.isEmpty
    · simp [hfl] at hne
    · by_cases hm : models_ok
      · simp [hfl, hm]
      · simp [hfl, hm]
  refine ⟨?_, ?_, ?_⟩
  · unfold compute_encodings
    by_cases hcond : (primary_results models_ok primary h w face_locations).isEmpty ||
        (primary_results models_ok primary h w face_locations).all (fun e => e.isNone)
    · simp only [hcond, if_true]
      cases hf : fallback with
      | some encs => simp [hfb encs hf]
      | none => simp
    · simp only [hcond, Bool.false_eq_true, if_false]
      have hne : (primary_results models_ok primary h w face_locations).isEmpty = false := by
        rcases Bool.or_eq_false_iff.mp (Bool.not_eq_true _ |>.mp hcond) with ⟨h1, _⟩
        exact h1
      exact hplen hne
  · intro h1 h2
    unfold compute_encodings
    have : ((primary_results models_ok primary h w face_locations).isEmpty ||
        (primary_results models_ok primary h w face_locations).all (fun e => e.isNone)) = false := by
      rw [Bool.or_eq_false_iff]
      exact ⟨Bool.not_eq_true _ |>.mp h1, Bool.not_eq_true _ |>.mp h2⟩
    simp [this]
  · intro hcase
    have hcond : ((primary_results models_ok primary h w face_locations).isEmpty ||
        (primary_results models_ok primary h w face_locations).all (fun e => e.isNone)) = true := by
      rcases hcase with hc | hc
      · simp [hc]
      · simp [hc]
    constructor
    · intro encs henc
      unfold compute_encodings
      simp only [hcond, if_true, henc]
    · intro henc
      unfold compute_encodings
      simp only [hcond, if_true, henc]

/-- Witness for `compute_encodings_fallback_policy` at a concrete input:
a 3-region batch whose primary path yields `[none, e, none]` (middle
region succeeds, first is degenerate, third fails), with a live fallback
— the fallback must NOT be used. -/
theorem compute_encodings_fallback_policy_witness :
    (∀ encs, (some [[(5:ℚ)], [6], [7]] : Option (List Emb)) = some encs →
       encs.length = ([((0:Int), 0, 0, 0), (0, 4, 4, 0), (1, 2, 3, 4)] : List Region).length) ∧
    computeEncodingsPolicy true
      (fun r => if r = ((0:Int), 4, 4, 0) then some [(9:ℚ)] else none)
      (some [[(5:ℚ)], [6], [7]]) 10 10
      [((0:Int), 0, 0, 0), (0, 4, 4, 0), (1, 2, 3, 4)] :=
  ⟨fun encs h => by injection h with h'; subst h'; rfl,
   compute_encodings_fallback_policy true
     (fun r => if r = ((0:Int), 4, 4, 0) then some [(9:ℚ)] else none)
     (some [[(5:ℚ)], [6], [7]]) 10 10
     [((0:Int), 0, 0, 0), (0, 4, 4, 0), (1, 2, 3, 4)]
     (fun encs h => by injection h with h'; subst h'; rfl)⟩

end FaceRec
